import Mathlib

/-!
Verification of behavioral claims about the personal workflow manager CLI
(`pwm`).  Each Python function under scrutiny is shallowly embedded as a
Lean definition close to the source text; the theorems below settle the
specification claims against those definitions.
-/

namespace PWM

/-! ### Slug computation (src/pwm/context/resolver.py, `slugify`)

    def slugify(s: str) -> str:
        s = s.lower()
        s = re.sub(r"[^a-z0-9]+", "-", s).strip("-")
        return s[:50]

Strings are modelled as lists of characters. -/

/-- Membership in the character class `a-z0-9` of the slug regex. -/
def isLowerAlnum (c : Char) : Bool :=
  decide ((97 ≤ c.toNat ∧ c.toNat ≤ 122) ∨ (48 ≤ c.toNat ∧ c.toNat ≤ 57))

/-- Python `str.lower` on the ASCII range: maps `A`-`Z` to `a`-`z` and leaves
every other character unchanged. -/
def pyLower (c : Char) : Char :=
  if 65 ≤ c.toNat ∧ c.toNat ≤ 90 then Char.ofNat (c.toNat + 32) else c

/-- The character stripped by `strip("-")`. -/
def isHyphen (c : Char) : Bool := c == '-'

/-- `re.sub(r"[^a-z0-9]+", "-", s)`: replace each maximal run of characters
outside `a-z0-9` with a single hyphen.  The Boolean flag records whether the
scan is inside a run whose replacement hyphen has already been emitted. -/
def subRunsAux : Bool → List Char → List Char
  | _, [] => []
  | inRun, c :: cs =>
    if isLowerAlnum c then c :: subRunsAux false cs
    else if inRun then subRunsAux true cs
    else '-' :: subRunsAux true cs

/-- The full regex substitution starts outside any run. -/
def subRuns (l : List Char) : List Char := subRunsAux false l

/-- `slugify` from src/pwm/context/resolver.py: lower-case, collapse runs of
non-alphanumerics to one hyphen, strip leading and trailing hyphens, then
truncate to the first 50 characters (in this order). -/
def slugify (s : List Char) : List Char :=
  List.take 50 (List.rdropWhile isHyphen (List.dropWhile isHyphen (subRuns (s.map pyLower))))

example : slugify ("Hello, World!".toList) = "hello-world".toList := by decide

example : slugify ("---".toList) = [] := by decide

/-- Input whose slug is truncated right at a hyphen: 49 `a`s, punctuation, `b`. -/
def slugTruncationInput : List Char := List.replicate 49 'a' ++ ['!', 'b']

example : slugify slugTruncationInput = List.replicate 49 'a' ++ ['-'] := by decide

/-! ### Previous business day (src/pwm/summary/business_days.py)

A Python `datetime` is modelled by its day number (days since a fixed
Monday, so `weekday = day mod 7` with 0 = Monday ... 6 = Sunday, matching
`datetime.weekday()`), its time-of-day fields, and an abstract timezone
tag (`tzinfo`).  `datetime - timedelta(days=k)` shifts the day number and
leaves time-of-day and timezone alone; `.replace(hour=0, ...)` zeroes the
time-of-day fields and keeps the timezone. -/

structure PyDateTime where
  day : ℤ
  hour : ℕ
  minute : ℕ
  second : ℕ
  microsecond : ℕ
  tz : Option ℤ
  deriving DecidableEq, Repr

/-- `datetime.weekday()`: 0 = Monday ... 6 = Sunday. -/
def PyDateTime.weekday (t : PyDateTime) : ℤ := t.day % 7

/-- The instant of a datetime on a common microsecond axis (valid for
comparing two datetimes carrying the same timezone tag, as wall-clock
comparison is what Python performs there). -/
def PyDateTime.toMicroseconds (t : PyDateTime) : ℤ :=
  (((t.day * 24 + (t.hour : ℤ)) * 60 + (t.minute : ℤ)) * 60 + (t.second : ℤ)) * 1000000
    + (t.microsecond : ℤ)

/-- `get_previous_business_day` from src/pwm/summary/business_days.py. -/
def get_previous_business_day (current_time : PyDateTime) : PyDateTime :=
  let weekday := current_time.weekday
  let days_back : ℤ :=
    if weekday = 0 then 3
    else if weekday = 5 then 1
    else if weekday = 6 then 2
    else 1
  let previous_day : PyDateTime := { current_time with day := current_time.day - days_back }
  { previous_day with hour := 0, minute := 0, second := 0, microsecond := 0 }

/-! ### Prompt status cache (src/pwm/commands/prompt.py)

The cache file holds a JSON object mapping issue keys to
`{"status": ..., "timestamp": ...}` entries.  A loaded Python dict is
modelled as an association list with unique keys: lookup returns the
first match and assignment replaces in place or appends.  `time.time()`
is an explicit integer-second parameter. -/

structure CacheEntry where
  status : String
  timestamp : ℤ
  deriving DecidableEq, Repr

/-- The observable states of the cache file on disk. -/
inductive CacheFile where
  | missing
  | malformed
  | ok (entries : List (String × CacheEntry))
  deriving DecidableEq, Repr

/-- Python dict lookup (`cache[key]` / `key in cache`). -/
def dictLookup : List (String × CacheEntry) → String → Option CacheEntry
  | [], _ => none
  | (k', v) :: rest, k => if k' = k then some v else dictLookup rest k

/-- Python dict assignment `cache[key] = value`: replace the existing
entry in place, or append a new one. -/
def dictInsert : List (String × CacheEntry) → String → CacheEntry → List (String × CacheEntry)
  | [], k, v => [(k, v)]
  | (k', v') :: rest, k, v =>
    if k' = k then (k, v) :: rest else (k', v') :: dictInsert rest k v

/-- `CACHE_TTL = 300`. -/
def CACHE_TTL : ℤ := 300

/-- `get_cached_status`: a missing file or malformed JSON yields `None`
(the exception is swallowed); otherwise the entry is returned only while
`time.time() - entry.timestamp < CACHE_TTL`. -/
def get_cached_status (file : CacheFile) (now : ℤ) (issue_key : String) : Option String :=
  match file with
  | .missing => none
  | .malformed => none
  | .ok cache =>
    match dictLookup cache issue_key with
    | none => none
    | some entry => if now - entry.timestamp < CACHE_TTL then some entry.status else none

/-- `set_cached_status`: start from the loaded dict (empty when the file
is missing or its JSON malformed), overwrite the key's entry with the
fresh status and timestamp, and write the whole dict back. -/
def set_cached_status (file : CacheFile) (now : ℤ) (issue_key : String) (status : String) :
    CacheFile :=
  let cache := match file with
    | .ok entries => entries
    | _ => []
  .ok (dictInsert cache issue_key ⟨status, now⟩)

/-- The entry list a cache file parses to (empty for missing/malformed). -/
def CacheFile.entries : CacheFile → List (String × CacheEntry)
  | .ok entries => entries
  | _ => []

/-! ### Work-end summary (src/pwm/work/end.py, `generate_work_summary`) -/

structure Commit where
  hash : String
  subject : String
  body : String
  deriving DecidableEq, Repr

/-- `generate_work_summary` from src/pwm/work/end.py. -/
def generate_work_summary (commits : List Commit) : String :=
  if commits.length = 0 then "No new changes since last update."
  else
    let subjects := commits.map Commit.subject
    if commits.length = 1 then subjects.headD "" ++ "."
    else
      let first_subject := subjects.headD ""
      first_subject ++ " and " ++ toString (commits.length - 1) ++ " other change"
        ++ (if commits.length > 2 then "s" else "") ++ "."

example :
    generate_work_summary [⟨"h1", "Add parser", "b"⟩, ⟨"h2", "Fix bug", "b"⟩]
      = "Add parser and 1 other change." := by decide

example :
    generate_work_summary [⟨"h1", "Add parser", "b"⟩, ⟨"h2", "Fix bug", "b"⟩, ⟨"h3", "Docs", ""⟩]
      = "Add parser and 2 other changes." := by decide

/-! ### Digest collection: closed-PR partition (src/pwm/summary/collector.py)

Only the `merged_at` field of a PR record is inspected; the rest of the
record is carried along opaquely as `rest`.  Python truthiness of
`pr.get("merged_at")`: an absent key, `None`, or an empty string are all
falsy. -/

structure ClosedPR where
  merged_at : Option String
  rest : ℕ
  deriving DecidableEq, Repr

/-- Truthiness of `pr.get("merged_at")`. -/
def hasTruthyMergedAt (pr : ClosedPR) : Bool :=
  match pr.merged_at with
  | none => false
  | some s => s != ""

/-- The loop in `collect_work_data` separating `all_closed` into
`prs_merged` and `prs_closed`, appending in iteration order. -/
def separateClosed : List ClosedPR → List ClosedPR × List ClosedPR
  | [] => ([], [])
  | pr :: rest =>
    let (m, c) := separateClosed rest
    if hasTruthyMergedAt pr then (pr :: m, c) else (m, pr :: c)

/-! ### Default-branch detection (src/pwm/vcs/git_cli.py, `get_default_branch`)

The outcomes of the underlying git subprocess calls are captured in an
oracle record; strings are lists of characters. -/

structure GitEnv where
  /-- First `git symbolic-ref refs/remotes/R/HEAD`: the stripped stdout
  when the call exits 0 (possibly empty), `none` on a nonzero exit. -/
  symHeadBefore : Option (List Char)
  /-- Whether `git remote set-head R -a` exits 0. -/
  setHeadOk : Bool
  /-- The symbolic-ref reread performed after a successful set-head. -/
  symHeadAfter : Option (List Char)
  /-- Whether `git rev-parse --verify R/main` exits 0. -/
  mainExists : Bool
  /-- Whether `git rev-parse --verify R/master` exits 0. -/
  masterExists : Bool
  /-- Whether `git rev-parse --verify R/develop` exits 0. -/
  developExists : Bool

/-- The ref-name prefix `refs/remotes/R/` checked with `startswith`. -/
def remoteHeadRefPfx (remote : List Char) : List Char :=
  "refs/remotes/".toList ++ remote ++ ['/']

/-- The shared step turning one symbolic-ref outcome into a branch
reference: require exit 0, nonempty stripped stdout, and the
`refs/remotes/R/` prefix, then return `R/` plus the stripped tail. -/
def parseSymRef (remote : List Char) (res : Option (List Char)) : Option (List Char) :=
  match res with
  | none => none
  | some ref =>
    if ref ≠ [] ∧ (remoteHeadRefPfx remote).isPrefixOf ref then
      some (remote ++ '/' :: ref.drop (remoteHeadRefPfx remote).length)
    else none

/-- `get_default_branch` from src/pwm/vcs/git_cli.py over the oracle. -/
def get_default_branch (env : GitEnv) (remote : List Char) : List Char :=
  match parseSymRef remote env.symHeadBefore with
  | some branchRef => branchRef
  | none =>
    match (if env.setHeadOk then parseSymRef remote env.symHeadAfter else none) with
    | some branchRef => branchRef
    | none =>
      if env.mainExists then remote ++ '/' :: "main".toList
      else if env.masterExists then remote ++ '/' :: "master".toList
      else if env.developExists then remote ++ '/' :: "develop".toList
      else remote ++ '/' :: "main".toList

/-! ### Layered configuration (src/pwm/config/loader.py)

Parsed TOML/JSON-ish values: strings, nested tables, and an opaque
constructor for every other value kind (`_deep_merge` only distinguishes
tables from non-tables). -/

inductive PyVal where
  | str (s : String)
  | dict (entries : List (String × PyVal))
  | other (tag : ℕ)

/-- Python dict read `d.get(k)` as an association-list first match. -/
def pyGet : List (String × PyVal) → String → Option PyVal
  | [], _ => none
  | (k', v) :: rest, k => if k' = k then some v else pyGet rest k

/-- Python dict write `d[k] = v`: replace in place or append. -/
def pySet : List (String × PyVal) → String → PyVal → List (String × PyVal)
  | [], k, v => [(k, v)]
  | (k', v') :: rest, k, v =>
    if k' = k then (k, v) :: rest else (k', v') :: pySet rest k v

mutual

/-- How `_deep_merge` treats one value of the overriding dict: two tables
merge recursively, anything else replaces the old value. -/
def mergeVal (oldVal : Option PyVal) (v : PyVal) : PyVal :=
  match v, oldVal with
  | PyVal.dict bv, some (PyVal.dict av) => PyVal.dict (mergeEntries av bv)
  | _, _ => v

/-- `_deep_merge(a, b)`: fold the items of `b` over a copy of `a`. -/
def mergeEntries (a : List (String × PyVal)) : List (String × PyVal) → List (String × PyVal)
  | [] => a
  | (k, v) :: rest => mergeEntries (pySet a k (mergeVal (pyGet a k) v)) rest

end

/-- Python `a or b` on optional strings: `None` and the empty string are
falsy. -/
def pyOrStr : Option String → Option String → Option String
  | some s, b => if s = "" then b else some s
  | none, b => b

/-- The intermediate table `setdefault` walks into (or freshly creates). -/
def subTable (d : List (String × PyVal)) (k1 : String) : List (String × PyVal) :=
  match pyGet d k1 with
  | some (PyVal.dict e) => e
  | _ => []

/-- `_set(d, "k1.k2", value)`: a `None` value is skipped entirely;
otherwise `setdefault` the intermediate table and assign the leaf.  In
`load_merged_config` this only runs on the freshly built override dict,
where the intermediate key is absent or already a table. -/
def set2 (d : List (String × PyVal)) (k1 k2 : String) (v : Option String) :
    List (String × PyVal) :=
  match v with
  | none => d
  | some s => pySet d k1 (PyVal.dict (pySet (subTable d k1) k2 (PyVal.str s)))

/-- The `env_overrides` dict built by the four `_set` calls of
`load_merged_config`.  The environment is the `os.getenv` lookup. -/
def envOverrides (env : String → Option String) : List (String × PyVal) :=
  set2 (set2 (set2 (set2 [] "jira" "token" (env "PWM_JIRA_TOKEN"))
        "jira" "base_url" (env "PWM_JIRA_BASE_URL"))
      "jira" "email" (env "PWM_JIRA_EMAIL"))
    "github" "token" (pyOrStr (env "GITHUB_TOKEN") (env "PWM_GITHUB_TOKEN"))

/-- `load_merged_config` with the three file layers passed in as already
parsed dicts: defaults ← user config ← project config ← env overrides. -/
def load_merged_config (base userCfg projectCfg : List (String × PyVal))
    (env : String → Option String) : List (String × PyVal) :=
  mergeEntries (mergeEntries (mergeEntries base userCfg) projectCfg) (envOverrides env)

/-- Reading a two-level path out of a config dict, as the use sites do
with `cfg.get(k1)` followed by `.get(k2)`. -/
def lookup2 (d : List (String × PyVal)) (k1 k2 : String) : Option PyVal :=
  match pyGet d k1 with
  | some (PyVal.dict e) => pyGet e k2
  | _ => none

/-- The API key `OpenAIClient.from_config` consumes: it reads only
`cfg.get("openai").get("api_key")` of the merged config, never any
environment variable (src/pwm/ai/openai_client.py). -/
def openai_api_key (cfg : List (String × PyVal)) : Option PyVal :=
  lookup2 cfg "openai" "api_key"

/-! ### Auxiliary predicates used by the theorems -/

/-- Characters that can appear in a slug: the regex class or the hyphen. -/
def isSlugChar (c : Char) : Bool := isLowerAlnum c || isHyphen c

/-- Well-formed slug material: every character drawn from the slug
alphabet and no two adjacent hyphens. -/
def SlugGood (l : List Char) : Prop :=
  (∀ c ∈ l, isSlugChar c = true) ∧ l.Chain' (fun a b => ¬(a = '-' ∧ b = '-'))

/-- A two-level path through nested config dicts holding value `v`. -/
def HasPath2 (d : List (String × PyVal)) (k1 k2 : String) (v : PyVal) : Prop :=
  ∃ e, pyGet d k1 = some (PyVal.dict e) ∧ pyGet e k2 = some v

/-- Key uniqueness down to the second level, as holds for any dict built
by Python (and for the override dict built by `envOverrides`). -/
def WFKeys (d : List (String × PyVal)) : Prop :=
  (d.map Prod.fst).Nodup ∧ ∀ k e, pyGet d k = some (PyVal.dict e) → (e.map Prod.fst).Nodup

/-! ## Theorems -/

/-- C4: `get_previous_business_day` goes back 3 days from a Monday, 1 day
from Tuesday through Friday and from Saturday, 2 days from Sunday, zeroes
hour, minute, second and microsecond, and preserves the timezone. -/
theorem previous_business_day_table (t : PyDateTime) :
    (get_previous_business_day t).hour = 0 ∧
    (get_previous_business_day t).minute = 0 ∧
    (get_previous_business_day t).second = 0 ∧
    (get_previous_business_day t).microsecond = 0 ∧
    (get_previous_business_day t).tz = t.tz ∧
    (t.weekday = 0 → (get_previous_business_day t).day = t.day - 3) ∧
    ((1 ≤ t.weekday ∧ t.weekday ≤ 4) ∨ t.weekday = 5 →
      (get_previous_business_day t).day = t.day - 1) ∧
    (t.weekday = 6 → (get_previous_business_day t).day = t.day - 2) := by
  obtain ⟨d, hh, mm, ss, us, tz⟩ := t
  simp only [get_previous_business_day, PyDateTime.weekday]
  split_ifs with h1 h2 h3 <;>
    refine ⟨by trivial, by trivial, by trivial, by trivial, by trivial, ?_, ?_, ?_⟩ <;>
    first
      | trivial
      | (intro h; first | rfl | omega)

/-- Witness for C4 at a concrete Monday, Friday and Sunday. -/
theorem previous_business_day_table_witness :
    (get_previous_business_day ⟨0, 12, 30, 5, 7, some 120⟩).day = -3 ∧
    (get_previous_business_day ⟨4, 12, 0, 0, 0, none⟩).day = 3 ∧
    (get_previous_business_day ⟨6, 1, 2, 3, 4, none⟩).day = 4 ∧
    (get_previous_business_day ⟨0, 12, 30, 5, 7, some 120⟩).tz = some 120 :=
  ⟨(previous_business_day_table ⟨0, 12, 30, 5, 7, some 120⟩).2.2.2.2.2.1 (by decide),
   (previous_business_day_table ⟨4, 12, 0, 0, 0, none⟩).2.2.2.2.2.2.1 (by decide),
   (previous_business_day_table ⟨6, 1, 2, 3, 4, none⟩).2.2.2.2.2.2.2 (by decide),
   (previous_business_day_table ⟨0, 12, 30, 5, 7, some 120⟩).2.2.2.2.1⟩

/-- C10: the result of `get_previous_business_day` always falls on a
weekday (Monday=0 through Friday=4) and is strictly earlier than the
input instant. -/
theorem previous_business_day_invariant (t : PyDateTime) :
    0 ≤ (get_previous_business_day t).weekday ∧
    (get_previous_business_day t).weekday ≤ 4 ∧
    (get_previous_business_day t).toMicroseconds < t.toMicroseconds := by
  unfold get_previous_business_day
  simp only [PyDateTime.weekday, PyDateTime.toMicroseconds]
  split_ifs with h1 h2 h3 <;> simp_all <;> omega

/-- C6: `generate_work_summary` returns the fixed no-changes message for
an empty commit list, the lone subject as a sentence for one commit, and
the first subject plus a count of the remaining commits otherwise, with
the plural s exactly when more than one other commit exists. -/
theorem generate_work_summary_spec (commits : List Commit) :
    (commits = [] → generate_work_summary commits = "No new changes since last update.") ∧
    (∀ c, commits = [c] → generate_work_summary commits = c.subject ++ ".") ∧
    (∀ c rest, commits = c :: rest → rest ≠ [] →
      generate_work_summary commits =
        c.subject ++ " and " ++ toString rest.length ++ " other change"
          ++ (if 2 ≤ rest.length then "s" else "") ++ ".") := by
  refine ⟨fun h => by subst h; rfl, fun c h => by subst h; rfl, fun c rest h hne => ?_⟩
  subst h
  rcases rest with _ | ⟨d, rest'⟩
  · exact absurd rfl hne
  · simp only [generate_work_summary, List.length_cons, List.map_cons, List.headD_cons]
    rcases Nat.eq_zero_or_pos rest'.length with hz | hp
    · simp [hz]
    · have h2 : 2 ≤ rest'.length + 1 := by omega
      have h3 : rest'.length + 1 + 1 > 2 := by omega
      have h0 : ¬(rest'.length + 1 + 1 = 0) := by omega
      have h1 : ¬(rest'.length + 1 + 1 = 1) := by omega
      have e1 : rest'.length + 1 + 1 - 1 = rest'.length + 1 := by omega
      simp only [if_neg h0, if_neg h1, if_pos h2, if_pos h3, e1]

/-- Witness for C6 on lists of zero, one, two and three commits. -/
theorem generate_work_summary_spec_witness :
    generate_work_summary [] = "No new changes since last update." ∧
    generate_work_summary [⟨"h1", "Add parser", ""⟩] = "Add parser." ∧
    generate_work_summary [⟨"h1", "Add parser", ""⟩, ⟨"h2", "Fix bug", ""⟩]
      = "Add parser and 1 other change." ∧
    generate_work_summary
        [⟨"h1", "Add parser", ""⟩, ⟨"h2", "Fix bug", ""⟩, ⟨"h3", "Docs", ""⟩]
      = "Add parser and 2 other changes." := by
  refine ⟨(generate_work_summary_spec []).1 rfl,
    (generate_work_summary_spec _).2.1 ⟨"h1", "Add parser", ""⟩ rfl,
    ?_, ?_⟩
  · have := (generate_work_summary_spec _).2.2 ⟨"h1", "Add parser", ""⟩
      [⟨"h2", "Fix bug", ""⟩] rfl (by decide)
    simpa using this
  · have := (generate_work_summary_spec _).2.2 ⟨"h1", "Add parser", ""⟩
      [⟨"h2", "Fix bug", ""⟩, ⟨"h3", "Docs", ""⟩] rfl (by decide)
    simpa using this

/-- C7: the closed-PR loop partitions its input by the truthiness of
`merged_at`, keeping relative order (both outputs are filters of the
input), with lengths summing to the input length; truthiness of
`merged_at` means exactly a present, nonempty merge timestamp. -/
theorem separateClosed_spec (l : List ClosedPR) :
    (separateClosed l).1 = l.filter hasTruthyMergedAt ∧
    (separateClosed l).2 = l.filter (fun pr => ! hasTruthyMergedAt pr) ∧
    (separateClosed l).1.length + (separateClosed l).2.length = l.length ∧
    (∀ pr : ClosedPR, hasTruthyMergedAt pr = true ↔
      ∃ s, pr.merged_at = some s ∧ s ≠ "") := by
  have key : ∀ m : List ClosedPR, (separateClosed m).1 = m.filter hasTruthyMergedAt ∧
      (separateClosed m).2 = m.filter (fun pr => ! hasTruthyMergedAt pr) := by
    intro m
    induction m with
    | nil => exact ⟨rfl, rfl⟩
    | cons pr rest ih =>
      rcases hsep : separateClosed rest with ⟨a, b⟩
      rw [hsep] at ih
      cases h : hasTruthyMergedAt pr <;>
        simp_all [separateClosed, List.filter_cons, hsep]
  refine ⟨(key l).1, (key l).2, ?_, ?_⟩
  · rw [(key l).1, (key l).2]
    induction l with
    | nil => rfl
    | cons pr rest ih =>
      cases h : hasTruthyMergedAt pr <;> simp_all [List.filter_cons] <;> omega
  · intro pr
    rcases pr with ⟨ma, r⟩
    cases ma <;> simp [hasTruthyMergedAt]

/-- Dict lookup after inserting the same key finds the new entry. -/
theorem dictLookup_dictInsert_self (l : List (String × CacheEntry)) (k : String)
    (v : CacheEntry) : dictLookup (dictInsert l k v) k = some v := by
  induction l with
  | nil => simp [dictInsert, dictLookup]
  | cons p rest ih =>
    rcases p with ⟨k', v'⟩
    by_cases h : k' = k <;> simp [dictInsert, dictLookup, h, ih]

/-- Dict lookup of a different key is unaffected by an insert. -/
theorem dictLookup_dictInsert_other (l : List (String × CacheEntry)) (k k' : String)
    (v : CacheEntry) (h : k' ≠ k) : dictLookup (dictInsert l k v) k' = dictLookup l k' := by
  have hkk : ¬(k = k') := fun he => h he.symm
  induction l with
  | nil => simp [dictInsert, dictLookup, hkk]
  | cons p rest ih =>
    rcases p with ⟨k0, v0⟩
    by_cases h0 : k0 = k <;> simp [dictInsert, dictLookup, h0, hkk, ih]

/-- C5: after `set_cached_status`, reading the same key back within the
300-second TTL returns the stored status, reading once 300 seconds have
passed returns none, and a malformed cache file always reads as absent. -/
theorem cache_roundtrip (file : CacheFile) (now readTime : ℤ) (key status : String) :
    (readTime - now < 300 →
      get_cached_status (set_cached_status file now key status) readTime key = some status) ∧
    (300 ≤ readTime - now →
      get_cached_status (set_cached_status file now key status) readTime key = none) ∧
    get_cached_status CacheFile.malformed readTime key = none := by
  have hb : get_cached_status (set_cached_status file now key status) readTime key
      = if readTime - now < 300 then some status else none := by
    simp only [set_cached_status, get_cached_status, dictLookup_dictInsert_self, CACHE_TTL]
  exact ⟨fun h => by rw [hb, if_pos h], fun h => by rw [hb, if_neg (by omega)], rfl⟩

/-- Witness for C5: a concrete write is readable 100 seconds later and
gone 400 seconds later, starting from a malformed respectively missing
file. -/
theorem cache_roundtrip_witness :
    get_cached_status
        (set_cached_status CacheFile.malformed 1000 "ABC-123" "In Progress") 1100 "ABC-123"
      = some "In Progress" ∧
    get_cached_status
        (set_cached_status CacheFile.missing 1000 "ABC-123" "In Progress") 1400 "ABC-123"
      = none :=
  ⟨(cache_roundtrip CacheFile.malformed 1000 1100 "ABC-123" "In Progress").1 (by decide),
   (cache_roundtrip CacheFile.missing 1000 1400 "ABC-123" "In Progress").2.1 (by decide)⟩

/-- C9: `set_cached_status` touches only the written key; every other
key's entry (status and timestamp alike, stale or not) is looked up
identically before and after the write. -/
theorem set_cached_status_frame (entries : List (String × CacheEntry)) (now : ℤ)
    (key status : String) (k : String) (h : k ≠ key) :
    dictLookup (set_cached_status (CacheFile.ok entries) now key status).entries k
      = dictLookup entries k := by
  simp only [set_cached_status, CacheFile.entries]
  exact dictLookup_dictInsert_other entries key k ⟨status, now⟩ h

/-- Witness for C9 at a concrete cache with a stale foreign entry. -/
theorem set_cached_status_frame_witness :
    dictLookup
        (set_cached_status (CacheFile.ok [("AAA-1", ⟨"Done", 5⟩)])
          1000 "BBB-2" "In Progress").entries "AAA-1"
      = dictLookup [("AAA-1", (⟨"Done", 5⟩ : CacheEntry))] "AAA-1" :=
  set_cached_status_frame [("AAA-1", ⟨"Done", 5⟩)] 1000 "BBB-2" "In Progress" "AAA-1"
    (by decide)

/-- A successful symbolic-ref parse always yields `R/` plus a tail. -/
theorem parseSymRef_shape (remote : List Char) (res : Option (List Char)) (b : List Char)
    (h : parseSymRef remote res = some b) : ∃ tail, b = remote ++ '/' :: tail := by
  rcases res with _ | ref
  · simp [parseSymRef] at h
  · simp only [parseSymRef] at h
    split_ifs at h with hc
    exact ⟨_, (Option.some.inj h).symm⟩

/-- C8: `get_default_branch` tries, in order with the first success
winning, the remote symbolic HEAD, the reread after a successful
auto-configure of the remote HEAD, the candidates main, master, develop,
and finally falls back to `R/main`; in every case it returns a
remote-prefixed branch reference. -/
theorem get_default_branch_resolution (env : GitEnv) (remote : List Char) :
    (∀ b, parseSymRef remote env.symHeadBefore = some b →
      get_default_branch env remote = b) ∧
    (parseSymRef remote env.symHeadBefore = none → env.setHeadOk = true →
      ∀ b, parseSymRef remote env.symHeadAfter = some b →
        get_default_branch env remote = b) ∧
    (parseSymRef remote env.symHeadBefore = none →
      (env.setHeadOk = false ∨ parseSymRef remote env.symHeadAfter = none) →
      ((env.mainExists = true →
          get_default_branch env remote = remote ++ '/' :: "main".toList) ∧
       (env.mainExists = false → env.masterExists = true →
          get_default_branch env remote = remote ++ '/' :: "master".toList) ∧
       (env.mainExists = false → env.masterExists = false → env.developExists = true →
          get_default_branch env remote = remote ++ '/' :: "develop".toList) ∧
       (env.mainExists = false → env.masterExists = false → env.developExists = false →
          get_default_branch env remote = remote ++ '/' :: "main".toList))) ∧
    (∃ tail, get_default_branch env remote = remote ++ '/' :: tail) := by
  refine ⟨?_, ?_, ?_, ?_⟩
  · intro b hb
    simp [get_default_branch, hb]
  · intro h1 hset b hb
    simp [get_default_branch, h1, hset, hb]
  · intro h1 h2
    have hsecond : (if env.setHeadOk then parseSymRef remote env.symHeadAfter else none)
        = none := by
      rcases h2 with h | h
      · simp [h]
      · by_cases hs : env.setHeadOk <;> simp [hs, h]
    refine ⟨?_, ?_, ?_, ?_⟩
    · intro hmain
      simp [get_default_branch, h1, hsecond, hmain]
    · intro hmain hmaster
      simp [get_default_branch, h1, hsecond, hmain, hmaster]
    · intro hmain hmaster hdev
      simp [get_default_branch, h1, hsecond, hmain, hmaster, hdev]
    · intro hmain hmaster hdev
      simp [get_default_branch, h1, hsecond, hmain, hmaster, hdev]
  · rcases h1 : parseSymRef remote env.symHeadBefore with _ | b
    · rcases h2 : (if env.setHeadOk then parseSymRef remote env.symHeadAfter else none)
        with _ | b
      · by_cases hm : env.mainExists
        · exact ⟨"main".toList, by simp [get_default_branch, h1, h2, hm]⟩
        · by_cases hms : env.masterExists
          · exact ⟨"master".toList, by simp [get_default_branch, h1, h2, hm, hms]⟩
          · by_cases hd : env.developExists
            · exact ⟨"develop".toList, by simp [get_default_branch, h1, h2, hm, hms, hd]⟩
            · exact ⟨"main".toList, by simp [get_default_branch, h1, h2, hm, hms, hd]⟩
      · have hset : env.setHeadOk = true := by
          by_contra hs
          simp [Bool.not_eq_true] at hs
          rw [hs] at h2
          cases h2
        rw [hset, if_pos rfl] at h2
        obtain ⟨tail, ht⟩ := parseSymRef_shape remote env.symHeadAfter b h2
        exact ⟨tail, by simp [get_default_branch, h1, hset, h2, ht]⟩
    · obtain ⟨tail, ht⟩ := parseSymRef_shape remote env.symHeadBefore b h1
      exact ⟨tail, by simp [get_default_branch, h1, ht]⟩

/-- Every character emitted by the run substitution is a lower-case
alphanumeric or the replacement hyphen. -/
theorem isSlugChar_of_mem_subRunsAux (l : List Char) :
    ∀ (b : Bool) (c : Char), c ∈ subRunsAux b l → isSlugChar c = true := by
  induction l with
  | nil =>
    intro b c hc
    simp [subRunsAux] at hc
  | cons c0 cs ih =>
    intro b c hc
    by_cases ha : isLowerAlnum c0
    · simp only [subRunsAux, if_pos ha] at hc
      rcases List.mem_cons.mp hc with h | h
      · subst h
        simp [isSlugChar, ha]
      · exact ih false c h
    · cases b
      · simp only [subRunsAux, if_neg ha, Bool.false_eq_true, if_false] at hc
        rcases List.mem_cons.mp hc with h | h
        · subst h
          decide
        · exact ih true c h
      · simp only [subRunsAux, if_neg ha, if_true] at hc
        exact ih true c hc

/-- Inside a run whose hyphen is already emitted, the next emitted
character is never a hyphen. -/
theorem head_subRunsAux_true (l : List Char) : (subRunsAux true l).head? ≠ some '-' := by
  induction l with
  | nil => simp [subRunsAux]
  | cons c cs ih =>
    by_cases ha : isLowerAlnum c
    · simp only [subRunsAux, if_pos ha, List.head?_cons, ne_eq, Option.some.injEq]
      rintro rfl
      exact absurd ha (by decide)
    · simpa only [subRunsAux, if_neg ha, if_true] using ih

/-- The run substitution never emits two adjacent hyphens. -/
theorem chain_subRunsAux (l : List Char) :
    ∀ b, (subRunsAux b l).Chain' (fun a b => ¬(a = '-' ∧ b = '-')) := by
  induction l with
  | nil =>
    intro b
    simp [subRunsAux]
  | cons c cs ih =>
    intro b
    by_cases ha : isLowerAlnum c
    · simp only [subRunsAux, if_pos ha]
      rw [List.chain'_cons']
      refine ⟨?_, ih false⟩
      rintro y _ ⟨rfl, _⟩
      exact absurd ha (by decide)
    · cases b
      · simp only [subRunsAux, if_neg ha, Bool.false_eq_true, if_false]
        rw [List.chain'_cons']
        refine ⟨?_, ih true⟩
        rintro y hy ⟨_, rfl⟩
        exact head_subRunsAux_true cs (Option.mem_def.mp hy)
      · simp only [subRunsAux, if_neg ha, if_true]
        exact ih true

/-- On well-formed slug material the run substitution is the identity
(for the in-run state, provided the head is not a hyphen). -/
theorem subRunsAux_eq_self (l : List Char) (hmem : ∀ c ∈ l, isSlugChar c = true)
    (hchain : l.Chain' (fun a b => ¬(a = '-' ∧ b = '-'))) :
    subRunsAux false l = l ∧ (l.head? ≠ some '-' → subRunsAux true l = l) := by
  induction l with
  | nil => exact ⟨rfl, fun _ => rfl⟩
  | cons c cs ih =>
    have hc := hmem c (List.mem_cons_self c cs)
    have hmem' : ∀ x ∈ cs, isSlugChar x = true :=
      fun x hx => hmem x (List.mem_cons_of_mem _ hx)
    have hcomp := (List.chain'_cons'.mp hchain).1
    obtain ⟨ih1, ih2⟩ := ih hmem' (List.chain'_cons'.mp hchain).2
    by_cases ha : isLowerAlnum c
    · refine ⟨?_, fun _ => ?_⟩ <;> simp only [subRunsAux, if_pos ha, ih1]
    · have hch : c = '-' := by
        have hh : isHyphen c = true := by simpa [isSlugChar, ha] using hc
        simpa [isHyphen] using hh
      subst hch
      have hhead : cs.head? ≠ some '-' := by
        intro hcs
        exact hcomp '-' (Option.mem_def.mpr hcs) ⟨rfl, rfl⟩
      refine ⟨?_, fun hhd => ?_⟩
      · simp only [subRunsAux, if_neg ha, Bool.false_eq_true, if_false, ih2 hhead]
      · exact absurd (rfl : ('-' :: cs).head? = some '-') hhd

/-- The slug is a prefix of a suffix of the run substitution's output,
so its characters come from the slug alphabet. -/
theorem slugify_subset_subRuns (s : List Char) :
    ∀ c ∈ slugify s, c ∈ subRuns (s.map pyLower) := by
  intro c hc
  have h1 : slugify s <+: List.rdropWhile isHyphen
      (List.dropWhile isHyphen (subRuns (s.map pyLower))) := List.take_prefix _ _
  have h2 := List.rdropWhile_prefix isHyphen
    (List.dropWhile isHyphen (subRuns (s.map pyLower)))
  have h3 := List.dropWhile_suffix (l := subRuns (s.map pyLower)) isHyphen
  exact List.IsSuffix.subset h3 (List.IsPrefix.subset (List.IsPrefix.trans h1 h2) hc)

/-- Every character of a slug is a lower-case alphanumeric or hyphen. -/
theorem slugify_chars (s : List Char) : ∀ c ∈ slugify s, isSlugChar c = true :=
  fun c hc => isSlugChar_of_mem_subRunsAux (s.map pyLower) false c
    (slugify_subset_subRuns s c hc)

/-- A slug never contains two adjacent hyphens. -/
theorem slugify_chain (s : List Char) :
    (slugify s).Chain' (fun a b => ¬(a = '-' ∧ b = '-')) := by
  have h1 := chain_subRunsAux (s.map pyLower) false
  have h2 := List.Chain'.suffix h1 (List.dropWhile_suffix isHyphen)
  have h3 := List.Chain'.prefix h2 ( List.rdropWhile_prefix isHyphen _)
  exact List.Chain'.prefix h3 ( List.take_prefix _ _)

/-- After dropping leading hyphens, the head is not a hyphen. -/
theorem head_dropWhile_not_hyphen (l : List Char) :
    (l.dropWhile isHyphen).head? ≠ some '-' := by
  induction l with
  | nil => simp
  | cons c cs ih =>
    by_cases h : isHyphen c
    · simpa [List.dropWhile_cons, h] using ih
    · simp only [List.dropWhile_cons, h, Bool.false_eq_true, if_false, List.head?_cons,
        ne_eq, Option.some.injEq]
      rintro rfl
      simp [isHyphen] at h

/-- A slug never starts with a hyphen. -/
theorem slugify_head (s : List Char) : (slugify s).head? ≠ some '-' := by
  intro h
  have hpref : slugify s <+: List.dropWhile isHyphen (subRuns (s.map pyLower)) :=
    List.IsPrefix.trans ( List.take_prefix _ _) ( List.rdropWhile_prefix isHyphen _)
  obtain ⟨t', ht'⟩ := hpref
  have hne : slugify s ≠ [] := by
    intro hnil
    rw [hnil] at h
    cases h
  have : (List.dropWhile isHyphen (subRuns (s.map pyLower))).head? = some '-' := by
    rw [← ht', List.head?_append_of_ne_nil _ hne, h]
  exact head_dropWhile_not_hyphen _ this

/-- C1 counterexample: the slug of 49 `a`s, `!`, `b` is truncated right
at the replacement hyphen, so it ends in a hyphen. -/
theorem slugify_trailing_hyphen_cex :
    slugify slugTruncationInput = List.replicate 49 'a' ++ ['-'] ∧
    (slugify slugTruncationInput).getLast? = some '-' := by decide

/-- C1 as amended: every slug is at most 50 characters, all its
characters are lower-case alphanumerics or hyphens (in particular no
upper-case ASCII letters), and it never starts with a hyphen.  (The
trailing-hyphen part of the original claim is refuted above.) -/
theorem slugify_bounded_lowercase (s : List Char) :
    (slugify s).length ≤ 50 ∧
    (∀ c ∈ slugify s, isSlugChar c = true) ∧
    (∀ c ∈ slugify s, ¬(65 ≤ c.toNat ∧ c.toNat ≤ 90)) ∧
    (slugify s).head? ≠ some '-' := by
  refine ⟨List.length_take_le _ _, slugify_chars s, ?_, slugify_head s⟩
  intro c hc
  have h := slugify_chars s c hc
  have h2 : isLowerAlnum c = true ∨ isHyphen c = true := by
    simpa [isSlugChar] using h
  rcases h2 with h1 | h1
  · have := of_decide_eq_true h1
    omega
  · have : c = '-' := by simpa [isHyphen] using h1
    subst this
    decide

/-- Witness for C1 as amended, on a concrete mixed-case input. -/
theorem slugify_bounded_lowercase_witness :
    (slugify ("Fix, The Bug!".toList)).length ≤ 50 ∧
    isSlugChar 'f' = true ∧
    ¬(65 ≤ 'f'.toNat ∧ 'f'.toNat ≤ 90) ∧
    (slugify ("Fix, The Bug!".toList)).head? ≠ some '-' :=
  ⟨(slugify_bounded_lowercase ("Fix, The Bug!".toList)).1,
   (slugify_bounded_lowercase ("Fix, The Bug!".toList)).2.1 'f' (by decide),
   (slugify_bounded_lowercase ("Fix, The Bug!".toList)).2.2.1 'f' (by decide),
   (slugify_bounded_lowercase ("Fix, The Bug!".toList)).2.2.2⟩

/-- `str.lower` fixes every slug character. -/
theorem pyLower_slugChar (c : Char) (h : isSlugChar c = true) : pyLower c = c := by
  have h2 : isLowerAlnum c = true ∨ isHyphen c = true := by
    simpa [isSlugChar] using h
  rcases h2 with h1 | h1
  · have := of_decide_eq_true h1
    unfold pyLower
    rw [if_neg (by omega)]
  · have : c = '-' := by simpa [isHyphen] using h1
    subst this
    decide

/-- Mapping a function that fixes all elements is the identity. -/
theorem map_id_of_fixed {α : Type} (f : α → α) (l : List α) (h : ∀ x ∈ l, f x = x) :
    l.map f = l := by
  induction l with
  | nil => rfl
  | cons x xs ih =>
    simp only [List.map_cons, h x (List.mem_cons_self x xs),
      ih fun y hy => h y (List.mem_cons_of_mem _ hy)]

/-- Dropping leading hyphens is the identity when the head is not one. -/
theorem dropWhile_eq_self_of_head (l : List Char) (h : l.head? ≠ some '-') :
    l.dropWhile isHyphen = l := by
  rcases l with _ | ⟨c, cs⟩
  · rfl
  · cases hh : isHyphen c
    · simp [List.dropWhile_cons, hh]
    · exfalso
      have hce : c = '-' := by simpa [isHyphen] using hh
      subst hce
      exact h rfl

/-- C2 counterexample: slugify is not idempotent on the truncated input
above (the second pass strips the trailing hyphen the first pass left). -/
theorem slugify_not_idempotent_cex :
    slugify (slugify slugTruncationInput) ≠ slugify slugTruncationInput := by decide

/-- C2 as amended: re-slugging a slug only strips the trailing hyphen a
truncation may have left, so slugify is idempotent exactly on the inputs
whose slug does not end in a hyphen. -/
theorem slugify_idempotent_mod_trailing (s : List Char) :
    slugify (slugify s) = List.rdropWhile isHyphen (slugify s) ∧
    ((slugify s).getLast? ≠ some '-' → slugify (slugify s) = slugify s) := by
  have hmem := slugify_chars s
  have hmap : (slugify s).map pyLower = slugify s :=
    map_id_of_fixed pyLower _ fun c hc => pyLower_slugChar c (hmem c hc)
  have hsub : subRuns (slugify s) = slugify s :=
    (subRunsAux_eq_self (slugify s) hmem (slugify_chain s)).1
  have hdrop : (slugify s).dropWhile isHyphen = slugify s :=
    dropWhile_eq_self_of_head _ (slugify_head s)
  have hlen : (List.rdropWhile isHyphen (slugify s)).length ≤ 50 :=
    le_trans (List.IsPrefix.length_le ( List.rdropWhile_prefix isHyphen _))
      (List.length_take_le _ _)
  have hmain : slugify (slugify s) = List.rdropWhile isHyphen (slugify s) := by
    show List.take 50 (List.rdropWhile isHyphen
      (List.dropWhile isHyphen (subRuns ((slugify s).map pyLower)))) = _
    rw [hmap, hsub, hdrop, List.take_of_length_le hlen]
  refine ⟨hmain, fun h => ?_⟩
  rw [hmain]
  apply List.rdropWhile_eq_self_iff.mpr
  intro hl hcontra
  have : (slugify s).getLast hl = '-' := by simpa [isHyphen] using hcontra
  exact h (by rw [List.getLast?_eq_getLast _ hl, this])

/-- Witness for C2 as amended: a slug with no trailing hyphen is a fixed
point of slugify. -/
theorem slugify_idempotent_mod_trailing_witness :
    slugify (slugify ("Fix The Bug".toList)) = slugify ("Fix The Bug".toList) :=
  (slugify_idempotent_mod_trailing ("Fix The Bug".toList)).2 (by decide)

/-- Config-dict lookup after writing the same key finds the new value. -/
theorem pyGet_pySet_self (d : List (String × PyVal)) (k : String) (v : PyVal) :
    pyGet (pySet d k v) k = some v := by
  induction d with
  | nil => simp [pySet, pyGet]
  | cons p rest ih =>
    rcases p with ⟨k0, v0⟩
    by_cases h : k0 = k <;> simp [pySet, pyGet, h, ih]

/-- Config-dict lookup of a different key ignores a write. -/
theorem pyGet_pySet_other (d : List (String × PyVal)) (k k' : String) (v : PyVal)
    (h : k' ≠ k) : pyGet (pySet d k v) k' = pyGet d k' := by
  have hkk : ¬(k = k') := fun he => h he.symm
  induction d with
  | nil => simp [pySet, pyGet, hkk]
  | cons p rest ih =>
    rcases p with ⟨k0, v0⟩
    by_cases h0 : k0 = k <;> simp [pySet, pyGet, h0, hkk, ih]

/-- A successful config-dict lookup exhibits a member. -/
theorem pyGet_mem (d : List (String × PyVal)) (k : String) (v : PyVal)
    (h : pyGet d k = some v) : (k, v) ∈ d := by
  induction d with
  | nil => simp [pyGet] at h
  | cons p rest ih =>
    rcases p with ⟨k0, v0⟩
    by_cases h0 : k0 = k
    · rw [pyGet, if_pos h0] at h
      exact List.mem_cons.mpr (Or.inl (by rw [h0, Option.some.inj h]))
    · rw [pyGet, if_neg h0] at h
      exact List.mem_cons.mpr (Or.inr (ih h))

/-- A key of a written dict is the written key or an old key. -/
theorem mem_keys_pySet (d : List (String × PyVal)) (k x : String) (v : PyVal)
    (h : x ∈ (pySet d k v).map Prod.fst) : x = k ∨ x ∈ d.map Prod.fst := by
  induction d with
  | nil => simpa [pySet] using h
  | cons p rest ih =>
    rcases p with ⟨k0, v0⟩
    by_cases h0 : k0 = k
    · simp only [pySet, if_pos h0, List.map_cons, List.mem_cons] at h
      rcases h with h | h
      · exact Or.inl h
      · exact Or.inr (by simp [List.mem_cons, h])
    · simp only [pySet, if_neg h0, List.map_cons, List.mem_cons] at h
      rcases h with h | h
      · exact Or.inr (by simp [List.mem_cons, h])
      · rcases ih h with h' | h'
        · exact Or.inl h'
        · exact Or.inr (by simp [List.mem_cons, h'])

/-- Writing preserves key uniqueness. -/
theorem nodup_keys_pySet (d : List (String × PyVal)) (k : String) (v : PyVal)
    (h : (d.map Prod.fst).Nodup) : ((pySet d k v).map Prod.fst).Nodup := by
  induction d with
  | nil => simp [pySet]
  | cons p rest ih =>
    rcases p with ⟨k0, v0⟩
    simp only [List.map_cons, List.nodup_cons] at h
    by_cases h0 : k0 = k
    · simp only [pySet, if_pos h0, List.map_cons, List.nodup_cons]
      exact ⟨by rw [← h0]; exact h.1, h.2⟩
    · simp only [pySet, if_neg h0, List.map_cons, List.nodup_cons]
      refine ⟨?_, ih h.2⟩
      intro hx
      rcases mem_keys_pySet rest k k0 v hx with he | he
      · exact h0 he
      · exact h.1 he

/-- A deep merge leaves keys absent from the overriding dict alone. -/
theorem pyGet_mergeEntries_not_mem :
    ∀ (b a : List (String × PyVal)) (k : String), k ∉ b.map Prod.fst →
      pyGet (mergeEntries a b) k = pyGet a k := by
  intro b
  induction b with
  | nil => intro a k _; rfl
  | cons p rest ih =>
    rcases p with ⟨k0, v0⟩
    intro a k h
    simp only [List.map_cons, List.mem_cons, not_or] at h
    rw [show mergeEntries a ((k0, v0) :: rest)
        = mergeEntries (pySet a k0 (mergeVal (pyGet a k0) v0)) rest from rfl]
    rw [ih _ k h.2, pyGet_pySet_other _ _ _ _ h.1]

/-- On a dup-free overriding dict, a deep merge maps each overriding
entry to the merge of old and new value. -/
theorem pyGet_mergeEntries_mem :
    ∀ (b a : List (String × PyVal)) (k : String) (v : PyVal),
      (b.map Prod.fst).Nodup → (k, v) ∈ b →
        pyGet (mergeEntries a b) k = some (mergeVal (pyGet a k) v) := by
  intro b
  induction b with
  | nil => intro a k v _ hmem; simp at hmem
  | cons p rest ih =>
    rcases p with ⟨k0, v0⟩
    intro a k v hnodup hmem
    simp only [List.map_cons, List.nodup_cons] at hnodup
    rw [show mergeEntries a ((k0, v0) :: rest)
        = mergeEntries (pySet a k0 (mergeVal (pyGet a k0) v0)) rest from rfl]
    rcases List.mem_cons.mp hmem with he | he
    · injection he with hk hv
      subst hk
      subst hv
      rw [pyGet_mergeEntries_not_mem rest _ k hnodup.1, pyGet_pySet_self]
    · have hk0 : k ≠ k0 := by
        intro he2
        subst he2
        exact hnodup.1 (List.mem_map_of_mem Prod.fst he)
      rw [ih _ k v hnodup.2 he, pyGet_pySet_other _ _ _ _ hk0]

/-- Setting a dotted path makes that path readable. -/
theorem hasPath2_set2_self (d : List (String × PyVal)) (k1 k2 s : String) :
    HasPath2 (set2 d k1 k2 (some s)) k1 k2 (PyVal.str s) :=
  ⟨pySet (subTable d k1) k2 (PyVal.str s), pyGet_pySet_self _ _ _, pyGet_pySet_self _ _ _⟩

/-- Setting one dotted path preserves every other readable path. -/
theorem hasPath2_set2_preserve (d : List (String × PyVal)) (k1 k2 : String) (v : PyVal)
    (k1' k2' : String) (x : Option String) (hne : k1' ≠ k1 ∨ k2' ≠ k2)
    (hp : HasPath2 d k1 k2 v) : HasPath2 (set2 d k1' k2' x) k1 k2 v := by
  cases x with
  | none => exact hp
  | some s =>
    obtain ⟨e, he1, he2⟩ := hp
    by_cases h1 : k1' = k1
    · subst h1
      have h2 : k2' ≠ k2 := by
        rcases hne with h | h
        · exact absurd rfl h
        · exact h
      have hsub : subTable d k1' = e := by simp [subTable, he1]
      refine ⟨pySet e k2' (PyVal.str s), ?_, ?_⟩
      · show pyGet (pySet d k1' (PyVal.dict (pySet (subTable d k1') k2' (PyVal.str s)))) k1' = _
        rw [hsub]
        exact pyGet_pySet_self _ _ _
      · rw [pyGet_pySet_other _ _ _ _ (fun he => h2 he.symm), he2]
    · exact ⟨e, by rw [show set2 d k1' k2' (some s)
          = pySet d k1' (PyVal.dict (pySet (subTable d k1') k2' (PyVal.str s))) from rfl,
          pyGet_pySet_other _ _ _ _ (fun he => h1 he.symm)]; exact he1, he2⟩

/-- The table `setdefault` walks into inherits key uniqueness. -/
theorem nodup_keys_subTable (d : List (String × PyVal)) (k1 : String) (h : WFKeys d) :
    ((subTable d k1).map Prod.fst).Nodup := by
  rcases hg : pyGet d k1 with _ | w
  · simp [subTable, hg]
  · rcases w with s | e | t
    · simp [subTable, hg]
    · have := h.2 k1 e hg
      simpa [subTable, hg] using this
    · simp [subTable, hg]

/-- Setting a dotted path preserves two-level key uniqueness. -/
theorem wf_set2 (d : List (String × PyVal)) (k1 k2 : String) (x : Option String)
    (h : WFKeys d) : WFKeys (set2 d k1 k2 x) := by
  cases x with
  | none => exact h
  | some s =>
    refine ⟨nodup_keys_pySet _ _ _ h.1, ?_⟩
    intro k e hk
    by_cases hkk : k = k1
    · subst hkk
      rw [show set2 d k k2 (some s)
          = pySet d k (PyVal.dict (pySet (subTable d k) k2 (PyVal.str s))) from rfl,
        pyGet_pySet_self] at hk
      have he : e = pySet (subTable d k) k2 (PyVal.str s) := by
        have := Option.some.inj hk
        injection this with h'
        exact h'.symm
      rw [he]
      exact nodup_keys_pySet _ _ _ (nodup_keys_subTable d k h)
    · rw [show set2 d k1 k2 (some s)
          = pySet d k1 (PyVal.dict (pySet (subTable d k1) k2 (PyVal.str s))) from rfl,
        pyGet_pySet_other _ _ _ _ hkk] at hk
      exact h.2 k e hk

/-- The override dict built from the environment has unique keys. -/
theorem wf_envOverrides (env : String → Option String) : WFKeys (envOverrides env) := by
  have h0 : WFKeys [] := ⟨List.nodup_nil, fun k e h => by simp [pyGet] at h⟩
  exact wf_set2 _ _ _ _ (wf_set2 _ _ _ _ (wf_set2 _ _ _ _ (wf_set2 _ _ _ _ h0)))

/-- A string sitting at a dotted path of a well-keyed overriding dict
survives a deep merge into any base: strings always override. -/
theorem lookup2_mergeEntries_of_hasPath2 (m o : List (String × PyVal)) (k1 k2 s : String)
    (hwf : WFKeys o) (hp : HasPath2 o k1 k2 (PyVal.str s)) :
    lookup2 (mergeEntries m o) k1 k2 = some (PyVal.str s) := by
  obtain ⟨e, he1, he2⟩ := hp
  have h1 : pyGet (mergeEntries m o) k1 = some (mergeVal (pyGet m k1) (PyVal.dict e)) :=
    pyGet_mergeEntries_mem o m k1 _ hwf.1 (pyGet_mem _ _ _ he1)
  unfold lookup2
  rw [h1]
  rcases hm : pyGet m k1 with _ | w
  · simpa [mergeVal] using he2
  · rcases w with s' | me | t
    · simpa [mergeVal] using he2
    · show pyGet (mergeEntries me e) k2 = some (PyVal.str s)
      rw [pyGet_mergeEntries_mem e me k2 _ (hwf.2 k1 e he1) (pyGet_mem _ _ _ he2)]
      rfl
    · simpa [mergeVal] using he2

/-- A key of the override dict is the written key or an old key. -/
theorem mem_keys_set2 (d : List (String × PyVal)) (k1 k2 : String) (x : Option String)
    (k : String) (h : k ∈ (set2 d k1 k2 x).map Prod.fst) :
    k = k1 ∨ k ∈ d.map Prod.fst := by
  cases x with
  | none => exact Or.inr h
  | some s => exact mem_keys_pySet d k1 k (PyVal.dict _) h

/-- The environment override dict only ever holds jira and github keys. -/
theorem keys_envOverrides (env : String → Option String) (k : String)
    (h : k ∈ (envOverrides env).map Prod.fst) : k = "jira" ∨ k = "github" := by
  unfold envOverrides at h
  rcases mem_keys_set2 _ _ _ _ _ h with h | h
  · exact Or.inr h
  · rcases mem_keys_set2 _ _ _ _ _ h with h | h
    · exact Or.inl h
    · rcases mem_keys_set2 _ _ _ _ _ h with h | h
      · exact Or.inl h
      · rcases mem_keys_set2 _ _ _ _ _ h with h | h
        · exact Or.inl h
        · simp at h

/-- Merging the environment overrides cannot touch any section other
than jira and github. -/
theorem lookup2_merge_env_other (m : List (String × PyVal)) (env : String → Option String)
    (k1 k2 : String) (h1 : k1 ≠ "jira") (h2 : k1 ≠ "github") :
    lookup2 (mergeEntries m (envOverrides env)) k1 k2 = lookup2 m k1 k2 := by
  have hnot : k1 ∉ (envOverrides env).map Prod.fst := by
    intro hk
    rcases keys_envOverrides env k1 hk with h | h
    · exact h1 h
    · exact h2 h
  unfold lookup2
  rw [pyGet_mergeEntries_not_mem _ _ _ hnot]

/-- C3 as amended: the environment variables are the highest-precedence
source for the tracker token, base URL and account email and for the
code-host token (GITHUB_TOKEN falling back to PWM_GITHUB_TOKEN), over
arbitrary default, user and project layers; the completion-service API
key however has no environment override at all: its merged value is
exactly the file-layer value. -/
theorem env_overrides_merged_config (base userCfg projectCfg : List (String × PyVal))
    (env : String → Option String) :
    (∀ v, env "PWM_JIRA_TOKEN" = some v →
      lookup2 (load_merged_config base userCfg projectCfg env) "jira" "token"
        = some (PyVal.str v)) ∧
    (∀ v, env "PWM_JIRA_BASE_URL" = some v →
      lookup2 (load_merged_config base userCfg projectCfg env) "jira" "base_url"
        = some (PyVal.str v)) ∧
    (∀ v, env "PWM_JIRA_EMAIL" = some v →
      lookup2 (load_merged_config base userCfg projectCfg env) "jira" "email"
        = some (PyVal.str v)) ∧
    (∀ v, pyOrStr (env "GITHUB_TOKEN") (env "PWM_GITHUB_TOKEN") = some v →
      lookup2 (load_merged_config base userCfg projectCfg env) "github" "token"
        = some (PyVal.str v)) ∧
    openai_api_key (load_merged_config base userCfg projectCfg env)
      = lookup2 (mergeEntries (mergeEntries base userCfg) projectCfg) "openai" "api_key" := by
  refine ⟨?_, ?_, ?_, ?_, ?_⟩
  · intro v hv
    refine lookup2_mergeEntries_of_hasPath2 _ _ _ _ _ (wf_envOverrides env) ?_
    unfold envOverrides
    refine hasPath2_set2_preserve _ _ _ _ _ _ _ (Or.inl (by decide)) ?_
    refine hasPath2_set2_preserve _ _ _ _ _ _ _ (Or.inr (by decide)) ?_
    refine hasPath2_set2_preserve _ _ _ _ _ _ _ (Or.inr (by decide)) ?_
    rw [hv]
    exact hasPath2_set2_self _ _ _ _
  · intro v hv
    refine lookup2_mergeEntries_of_hasPath2 _ _ _ _ _ (wf_envOverrides env) ?_
    unfold envOverrides
    refine hasPath2_set2_preserve _ _ _ _ _ _ _ (Or.inl (by decide)) ?_
    refine hasPath2_set2_preserve _ _ _ _ _ _ _ (Or.inr (by decide)) ?_
    rw [hv]
    exact hasPath2_set2_self _ _ _ _
  · intro v hv
    refine lookup2_mergeEntries_of_hasPath2 _ _ _ _ _ (wf_envOverrides env) ?_
    unfold envOverrides
    refine hasPath2_set2_preserve _ _ _ _ _ _ _ (Or.inl (by decide)) ?_
    rw [hv]
    exact hasPath2_set2_self _ _ _ _
  · intro v hv
    refine lookup2_mergeEntries_of_hasPath2 _ _ _ _ _ (wf_envOverrides env) ?_
    unfold envOverrides
    rw [hv]
    exact hasPath2_set2_self _ _ _ _
  · exact lookup2_merge_env_other _ env "openai" "api_key" (by decide) (by decide)

/-- Witness for C3 as amended: a tracker token from the environment wins
over a different token in the project file. -/
theorem env_overrides_merged_config_witness :
    lookup2 (load_merged_config [] []
        [("jira", PyVal.dict [("token", PyVal.str "file-token")])]
        (fun k => if k = "PWM_JIRA_TOKEN" then some "env-token" else none))
      "jira" "token" = some (PyVal.str "env-token") :=
  (env_overrides_merged_config [] []
      [("jira", PyVal.dict [("token", PyVal.str "file-token")])]
      (fun k => if k = "PWM_JIRA_TOKEN" then some "env-token" else none)).1
    "env-token" (by decide)

/-- C3 counterexample: with a completion-service API key in the
environment (under either plausible variable name) and a different key
in the project file, the merged configuration keeps the file value:
`load_merged_config` reads no environment variable for the OpenAI key,
and `OpenAIClient.from_config` consumes only the merged config. -/
theorem openai_env_key_not_override_cex :
    openai_api_key (load_merged_config [] []
        [("openai", PyVal.dict [("api_key", PyVal.str "file-key")])]
        (fun k => if k = "OPENAI_API_KEY" ∨ k = "PWM_OPENAI_API_KEY"
          then some "env-key" else none))
      = some (PyVal.str "file-key") := by rfl

/-- Witness for C8: a published symbolic HEAD resolves immediately. -/
theorem get_default_branch_resolution_witness :
    get_default_branch
        ⟨some ("refs/remotes/origin/develop".toList), false, none, true, true, true⟩
        ("origin".toList)
      = "origin/develop".toList :=
  (get_default_branch_resolution
      ⟨some ("refs/remotes/origin/develop".toList), false, none, true, true, true⟩
      ("origin".toList)).1 ("origin/develop".toList) (by decide)

end PWM
